import Mathlib

/-!
Verification development for the RFRaptor SDR receive pipeline.

Shallow embedding of the bit-layer codec (`src/bitops.rs`,
`src/bitops/lfsr.rs`, `src/bitops/bitparser.rs`), the FSK bit emission
stage (`src/fsk.rs`), the polyphase channelizer state machine
(`src/channelizer.rs`), the BLE packet parser (`src/bluetooth.rs`) and
the channel fan-out routing (`src/stream.rs`).

Bits carried as `u8` values in {0,1} in the Rust code are modelled as
`Bool` (`true` = 1).  Machine integers are modelled as `Nat`/`Int` with
explicit wrap-around where it matters.  Functions that can panic in
Rust return `Option _` with `none` standing for the panic; fallible
parsers return `Option`/`Except` values mirroring `nom::IResult` /
`anyhow::Result`.
-/

namespace RFRaptor

/-- Whitening LFSR with 7-bit state (Rust `LFSR0221 { state: u8 }`,
`src/bitops/lfsr.rs`). -/
structure LFSR0221 where
  state : Nat
deriving Repr, DecidableEq

/-- Frequency (MHz) to BLE whitening channel index
(`LFSR0221::from_freq`'s inner `freq_to_channel`).  Rust `usize`
subtraction is total here for the frequencies the pipeline routes
(2402..2480); `Nat` subtraction truncates like the valid-range code path. -/
def freq_to_channel (freq : Nat) : Nat :=
  let phys_channel := (freq - 2402) / 2
  if phys_channel = 0 then 37
  else if phys_channel = 12 then 38
  else if phys_channel = 39 then 39
  else if phys_channel < 12 then phys_channel - 1
  else phys_channel - 2

/-- `LFSR0221::from_ch`: state is `channel | 0b1000000`. -/
def LFSR0221.from_ch (channel : Nat) : LFSR0221 :=
  ⟨channel ||| 0b1000000⟩

/-- `LFSR0221::from_freq`. -/
def LFSR0221.from_freq (freq : Nat) : LFSR0221 :=
  LFSR0221.from_ch (freq_to_channel freq)

/-- `LFSR0221::next_white`: output `state & 1`, then
`state >>= 1; if bit == 1 { state ^= 0b1000100 }`. -/
def LFSR0221.next_white (l : LFSR0221) : Bool × LFSR0221 :=
  let bit := l.state % 2
  let s := l.state / 2
  (bit = 1, ⟨if bit = 1 then s ^^^ 0b1000100 else s⟩)

/-- First `n` output bits of the LFSR (the whitening sequence). -/
def LFSR0221.whiteBits : LFSR0221 → Nat → List Bool
  | _, 0 => []
  | l, n + 1 =>
    let (b, l') := l.next_white
    b :: l'.whiteBits n

/-- XOR a bit sequence with the LFSR output stream, threading the state
(the per-bit body of `WhitedByte::parse`/`WhitedByte::encode`),
returning the final state as well. -/
def LFSR0221.whitenAcc : LFSR0221 → List Bool → List Bool × LFSR0221
  | l, [] => ([], l)
  | l, b :: bs =>
    let (w, l') := l.next_white
    let (rest, lf) := l'.whitenAcc bs
    (xor b w :: rest, lf)

/-- XOR a bit sequence with the LFSR output stream. -/
def LFSR0221.whiten (l : LFSR0221) (bs : List Bool) : List Bool :=
  (l.whitenAcc bs).1

/-- The BLE frequency-to-whitening-channel table: physical channel 0
(2402 MHz) is channel 37, 2426 MHz is 38, 2480 MHz is 39, and the
remaining data channels fill in order. -/
def channelTable : List (Nat × Nat) :=
  [(2402, 37), (2404, 0), (2406, 1), (2408, 2), (2410, 3), (2412, 4),
   (2414, 5), (2416, 6), (2418, 7), (2420, 8), (2422, 9), (2424, 10),
   (2426, 38), (2428, 11), (2430, 12), (2432, 13), (2434, 14), (2436, 15),
   (2438, 16), (2440, 17), (2442, 18), (2444, 19), (2446, 20), (2448, 21),
   (2450, 22), (2452, 23), (2454, 24), (2456, 25), (2458, 26), (2460, 27),
   (2462, 28), (2464, 29), (2466, 30), (2468, 31), (2470, 32), (2472, 33),
   (2474, 34), (2476, 35), (2478, 36), (2480, 39)]

/-- Expected first 20 whitening bits for channel 0 (1 = `true`). -/
def c3Expected : List Bool :=
  [false, false, false, false, false, false, true, false, false, true,
   false, false, true, true, false, true, false, false, true, true]

/-- C3: the whitening LFSR seeded from every valid frequency holds
`channel | 0x40` in its 7-bit state, with `channel` given by the BLE
frequency/channel table; the state stays 7-bit across a step; and for
channel 0 the first 20 output bits are
0,0,0,0,0,0,1,0,0,1,0,0,1,1,0,1,0,0,1,1. -/
theorem c3_lfsr_seed_and_prefix :
    (channelTable.all fun p =>
      (LFSR0221.from_freq p.1).state == p.2 ||| 0b1000000) = true
    ∧ (channelTable.all fun p =>
        decide ((LFSR0221.from_freq p.1).state < 128)) = true
    ∧ (LFSR0221.from_ch 0).whiteBits 20 = c3Expected := by
  decide

/-- Helper for C4: whitening twice with the same starting state is the
identity; the state evolution is data-independent, so induction on the
bit list suffices. -/
theorem whiten_involutive (l : LFSR0221) (bs : List Bool) :
    l.whiten (l.whiten bs) = bs := by
  unfold LFSR0221.whiten
  induction bs generalizing l with
  | nil => simp [LFSR0221.whitenAcc]
  | cons b rest ih =>
    simp only [LFSR0221.whitenAcc, LFSR0221.next_white]
    by_cases h : l.state % 2 = 1 <;> cases b <;> simp [h, ih]

/-- The 16-bit test vector of scenario S1. -/
def s1Vector : List Bool :=
  [false, true, true, false, true, false, true, true,
   true, false, false, true, false, false, false, true]

/-- C4: whitening is an involution: XOR-ing any bit sequence with the
LFSR stream seeded from any channel, then XOR-ing again with a freshly
seeded LFSR of the same channel, returns the original sequence; in
particular for the 16-bit vector 0110101110010001 on channel 0. -/
theorem c4_whitening_involution :
    (∀ (ch : Nat) (bs : List Bool),
      (LFSR0221.from_ch ch).whiten ((LFSR0221.from_ch ch).whiten bs) = bs)
    ∧ (LFSR0221.from_ch 0).whiten ((LFSR0221.from_ch 0).whiten s1Vector)
        = s1Vector := by
  exact ⟨fun ch bs => whiten_involutive _ bs,
    whiten_involutive _ s1Vector⟩

/-! ## Preamble parser (`Preamble::parse`, src/bitops.rs lines 131-151) -/

/-- `Preamble::parse`: take 6 bits (fail on fewer) and fail unless
`took[0]==took[2]`, `took[1]==took[3]`, `took[2]==took[4]`,
`took[3]==took[5]`; on success return the remaining bits. -/
def Preamble.parse : List Bool → Option (List Bool)
  | b0 :: b1 :: b2 :: b3 :: b4 :: b5 :: rest =>
    if (b0 != b2) || (b1 != b3) || (b2 != b4) || (b3 != b5) then none
    else some rest
  | _ => none

/-- C10: the preamble check accepts exactly the six-bit prefixes whose
bits 0, 2, 4 are pairwise equal and whose bits 1, 3, 5 are pairwise
equal; in particular six zero bits are accepted, so a decode need not
begin with a strictly alternating 0/1 preamble. -/
theorem c10_preamble_accepts_nonalternating :
    (∀ (b0 b1 b2 b3 b4 b5 : Bool) (rest : List Bool),
      (Preamble.parse (b0 :: b1 :: b2 :: b3 :: b4 :: b5 :: rest)).isSome
        ↔ ((b0 = b2 ∧ b2 = b4) ∧ (b1 = b3 ∧ b3 = b5)))
    ∧ Preamble.parse [false, false, false, false, false, false] = some [] := by
  constructor
  · intro b0 b1 b2 b3 b4 b5 rest
    simp only [Preamble.parse]
    cases b0 <;> cases b1 <;> cases b2 <;> cases b3 <;> cases b4 <;> cases b5 <;>
      simp
  · rfl

/-! ## Bit-layer codec (`bits_to_packet`, src/bitops.rs lines 19-83) -/

/-- LSB-first byte assembly (`byte |= b << i` over the taken bits). -/
def byteFromBits : List Bool → Nat
  | [] => 0
  | b :: rest => (if b then 1 else 0) + 2 * byteFromBits rest

/-- `RawByte::parse`: take 8 bits (fail on fewer), assemble LSB-first. -/
def RawByte.parse : List Bool → Option (List Bool × Nat)
  | b0 :: b1 :: b2 :: b3 :: b4 :: b5 :: b6 :: b7 :: rest =>
    some (rest, byteFromBits [b0, b1, b2, b3, b4, b5, b6, b7])
  | _ => none

/-- The `for _ in 0..4` loop of `bits_to_packet`: `n` raw bytes, or
`none` when `RawByte::parse` hits bit starvation. -/
def rawBytes : Nat → List Bool → Option (List Nat × List Bool)
  | 0, bs => some ([], bs)
  | n + 1, bs =>
    match RawByte.parse bs with
    | none => none
    | some (rem, byte) =>
      match rawBytes n rem with
      | none => none
      | some (bytes, rest) => some (byte :: bytes, rest)

/-- The `while let Ok((remain, WhitedByte { byte }))` loop: greedily
parse whitened bytes (`WhitedByte::parse`) until fewer than 8 bits
remain; returns the parsed bytes and the remaining bits. -/
def whitedLoop : LFSR0221 → List Bool → List Nat × List Bool
  | l, b0 :: b1 :: b2 :: b3 :: b4 :: b5 :: b6 :: b7 :: rest =>
    let w := l.whitenAcc [b0, b1, b2, b3, b4, b5, b6, b7]
    let p := whitedLoop w.2 rest
    (byteFromBits w.1 :: p.1, p.2)
  | _, bs => ([], bs)

/-- One trial offset of the offset search: skip `offset` bits, parse
four raw access-address bytes (`none` = bit starvation), then whitened
bytes greedily; returns all recovered bytes and the remaining bits. -/
def offsetBytes (freq : Nat) (bits : List Bool) (offset : Nat) :
    Option (List Nat × List Bool) :=
  match rawBytes 4 (bits.drop offset) with
  | none => none
  | some (bytes4, rest) =>
    let w := whitedLoop (LFSR0221.from_freq freq) rest
    some (bytes4 ++ w.1, w.2)

/-- The `for offset in 0..3` loop of `bits_to_packet`, threading the
minimum tracker (external crate `useful_number::UpdateToMinI64WithData`;
it keeps the first datum achieving the strictly smallest value — the
claims proved below do not depend on its tie behaviour).  Outer `none`
models the Rust panic: `bytes[5]` is indexed without a length check.
`Except.error` models the early `return Err(..)` on bit starvation. -/
def offsetLoop (bitsLen : Int) (freq : Nat) (bits : List Bool) :
    List Nat → Option (Int × List Nat × List Bool × Nat) →
    Option (Except String (Option (Int × List Nat × List Bool × Nat)))
  | [], found => some (.ok found)
  | offset :: more, found =>
    match offsetBytes freq bits offset with
    | none => some (.error "bit starvation")
    | some (bytes, remain) =>
      match bytes[5]? with
      | none => none
      | some b5 =>
        let packet_length : Int := 8 + 32 + 16 + Int.ofNat b5 * 8 + 24
        let delta := bitsLen - packet_length
        if delta ≤ 0 then offsetLoop bitsLen freq bits more found
        else
          offsetLoop bitsLen freq bits more
            (match found with
             | none => some (delta, bytes, remain, offset)
             | some (d, data) =>
               if delta < d then some (delta, bytes, remain, offset)
               else some (d, data))

/-- The recovered byte sequence with access address, frequency, delta
and chosen offset (Rust `BytePacket`). -/
structure BytePacket where
  bytes : List Nat
  aa : Nat
  freq : Nat
  delta : Int
  offset : Nat
deriving Repr, DecidableEq

/-- Little-endian u32 of `bytes[0..4]` (`u32::ref_from_bytes`; its
alignment/size failure cannot arise for the 4-byte prefix of a byte
vector of length at least 6 and is not modelled). -/
def aaOfBytes (bytes : List Nat) : Nat :=
  bytes.getD 0 0 + 256 * bytes.getD 1 0 + 65536 * bytes.getD 2 0 +
    16777216 * bytes.getD 3 0

/-- `bits_to_packet(bits, freq)`.  The Bluetooth-Classic access-code
finder (`Lap::parse`, external libbtbb C library) consumes no input and
is modelled by the oracle `lap`; `Lap::is_valid_as_ble` accepts `none`
(nothing found) or the sentinel 0xffffffff.  In the result, `none` is a
Rust panic, `Except.error` an error return, and `Except.ok` carries the
`(remaining bits, BytePacket)` pair. -/
def bits_to_packet (lap : List Bool → Option Nat) (bits : List Bool)
    (freq : Nat) : Option (Except String (List Bool × BytePacket)) :=
  let bits_len : Int := bits.length
  if (match lap bits with
      | some l => l == 0xffffffff
      | none => true) then
    match Preamble.parse bits with
    | none => some (.error "failed to parse preamble")
    | some tail =>
      match offsetLoop bits_len freq tail [0, 1, 2] none with
      | none => none
      | some (.error e) => some (.error e)
      | some (.ok none) => some (.error "valid length data not found")
      | some (.ok (some (delta, bytes, remain, offset))) =>
        if 20 ≤ delta then some (.error "delta is too big")
        else
          some (.ok (remain,
            { bytes := bytes, aa := aaOfBytes bytes, freq := freq,
              delta := delta, offset := offset }))
  else some (.error "lap is not valid")

/-- The delta a trial offset yields: input bit-stream length minus the
declared packet length 8 + 32 + 16 + 8·bytes[5] + 24 (defaulting to 0
when the offset cannot be parsed at all; the theorems below only use it
under length hypotheses that make the parse succeed). -/
def offsetDelta (freq : Nat) (bitsLen : Int) (tail : List Bool)
    (k : Nat) : Int :=
  match offsetBytes freq tail k with
  | some (bytes, _) =>
    bitsLen - (8 + 32 + 16 + Int.ofNat (bytes.getD 5 0) * 8 + 24)
  | none => 0

/-- A 38-bit all-zero stream: the preamble check passes and the first
trial offset recovers only four bytes before the bits run out. -/
def c6Bits : List Bool := List.replicate 38 false

/-- `RawByte::parse` succeeds on any input of at least 8 bits,
consuming exactly 8 and assembling them LSB-first. -/
lemma rawByte_parse_eq (bs : List Bool) (h : 8 ≤ bs.length) :
    RawByte.parse bs = some (bs.drop 8, byteFromBits (bs.take 8)) := by
  rcases bs with _ | ⟨b0, _ | ⟨b1, _ | ⟨b2, _ | ⟨b3, _ | ⟨b4, _ | ⟨b5, _ |
    ⟨b6, _ | ⟨b7, rest⟩⟩⟩⟩⟩⟩⟩⟩ <;> (first | rfl | simp at h)

/-- The raw-byte loop consumes exactly `8·n` bits when they are
available. -/
lemma rawBytes_spec : ∀ (n : Nat) (bs : List Bool), 8 * n ≤ bs.length →
    ∃ bytes, rawBytes n bs = some (bytes, bs.drop (8 * n)) ∧
      bytes.length = n := by
  intro n
  induction n with
  | zero => exact fun bs _ => ⟨[], by simp [rawBytes], rfl⟩
  | succ n ih =>
    intro bs h
    have h8 : 8 ≤ bs.length := by omega
    obtain ⟨bytes, hb, hlen⟩ := ih (bs.drop 8) (by simp; omega)
    have hd : (bs.drop 8).drop (8 * n) = bs.drop (8 * (n + 1)) := by
      rw [List.drop_drop]
      congr 1
      ring
    refine ⟨byteFromBits (bs.take 8) :: bytes, ?_, by simp [hlen]⟩
    rw [hd] at hb
    simp [rawBytes, rawByte_parse_eq bs h8, hb]

/-- The whitened-byte loop recovers one byte per 8 available bits. -/
lemma whitedLoop_fst_length : ∀ (l : LFSR0221) (bs : List Bool),
    (whitedLoop l bs).1.length = bs.length / 8
  | l, b0 :: b1 :: b2 :: b3 :: b4 :: b5 :: b6 :: b7 :: rest => by
    have ih := whitedLoop_fst_length
      (l.whitenAcc [b0, b1, b2, b3, b4, b5, b6, b7]).2 rest
    simp [whitedLoop, ih]
    omega
  | _, [] => by simp [whitedLoop]
  | _, [_] => by simp [whitedLoop]
  | _, [_, _] => by simp [whitedLoop]
  | _, [_, _, _] => by simp [whitedLoop]
  | _, [_, _, _, _] => by simp [whitedLoop]
  | _, [_, _, _, _, _] => by simp [whitedLoop]
  | _, [_, _, _, _, _, _] => by simp [whitedLoop]
  | _, [_, _, _, _, _, _, _] => by simp [whitedLoop]

/-- A trial offset with at least 48 bits available recovers at least
six bytes (four raw plus at least two whitened). -/
lemma offsetBytes_spec (freq : Nat) (tail : List Bool) (k : Nat)
    (h : k + 48 ≤ tail.length) :
    ∃ B R, offsetBytes freq tail k = some (B, R) ∧ 6 ≤ B.length := by
  have h32 : 8 * 4 ≤ (tail.drop k).length := by simp; omega
  obtain ⟨bytes4, hb4, hlen4⟩ := rawBytes_spec 4 (tail.drop k) h32
  refine ⟨bytes4 ++
    (whitedLoop (LFSR0221.from_freq freq) ((tail.drop k).drop (8 * 4))).1,
    (whitedLoop (LFSR0221.from_freq freq) ((tail.drop k).drop (8 * 4))).2,
    ?_, ?_⟩
  · simp [offsetBytes, hb4]
  · have hw := whitedLoop_fst_length (LFSR0221.from_freq freq)
      ((tail.drop k).drop (8 * 4))
    rw [List.length_append, hlen4, hw, List.length_drop, List.length_drop]
    omega

/-- The delta at an offset, in terms of its recovered bytes. -/
lemma offsetDelta_eq (freq : Nat) (L : Int) (tail : List Bool) (k : Nat)
    (B : List Nat) (R : List Bool)
    (hBR : offsetBytes freq tail k = some (B, R)) :
    offsetDelta freq L tail k =
      L - (8 + 32 + 16 + Int.ofNat (B.getD 5 0) * 8 + 24) := by
  simp [offsetDelta, hBR]

/-- One step of the minimum tracker as a pure accumulator update (used
only to characterise `offsetLoop`). -/
def updMin (bitsLen : Int) (freq : Nat) (tail : List Bool)
    (found : Option (Int × List Nat × List Bool × Nat)) (k : Nat) :
    Option (Int × List Nat × List Bool × Nat) :=
  match offsetBytes freq tail k with
  | none => found
  | some (bytes, remain) =>
    let delta := bitsLen - (8 + 32 + 16 + Int.ofNat (bytes.getD 5 0) * 8 + 24)
    if delta ≤ 0 then found
    else
      match found with
      | none => some (delta, bytes, remain, k)
      | some (d, data) =>
        if delta < d then some (delta, bytes, remain, k) else some (d, data)

lemma updMin_eq (L : Int) (freq : Nat) (tail : List Bool)
    (found : Option (Int × List Nat × List Bool × Nat)) (k : Nat)
    (B : List Nat) (R : List Bool)
    (hBR : offsetBytes freq tail k = some (B, R)) :
    updMin L freq tail found k =
      (if offsetDelta freq L tail k ≤ 0 then found
       else
         match found with
         | none => some (offsetDelta freq L tail k, B, R, k)
         | some (d, data) =>
           if offsetDelta freq L tail k < d then
             some (offsetDelta freq L tail k, B, R, k)
           else some (d, data)) := by
  rw [offsetDelta_eq freq L tail k B R hBR]
  simp [updMin, hBR]

/-- When every listed offset parses to at least six bytes, the trial
loop neither panics nor errors: it is the pure minimum fold. -/
lemma offsetLoop_eq_foldl (L : Int) (freq : Nat) (tail : List Bool) :
    ∀ (ks : List Nat) (found : Option (Int × List Nat × List Bool × Nat)),
    (∀ k ∈ ks, ∃ B R, offsetBytes freq tail k = some (B, R) ∧ 6 ≤ B.length) →
    offsetLoop L freq tail ks found =
      some (.ok (ks.foldl (updMin L freq tail) found)) := by
  intro ks
  induction ks with
  | nil => intro found _; rfl
  | cons k more ih =>
    intro found hk
    obtain ⟨B, R, hBR, hlen⟩ := hk k (by simp)
    have hmore : ∀ j ∈ more,
        ∃ B R, offsetBytes freq tail j = some (B, R) ∧ 6 ≤ B.length :=
      fun j hj => hk j (by simp [hj])
    have h5 : B[5]? = some (B.getD 5 0) := by
      rw [List.getElem?_eq_getElem (by omega), List.getD_eq_getElem B 0 (by omega)]
    have hdk : offsetDelta freq L tail k =
        L - (8 + 32 + 16 + Int.ofNat (B.getD 5 0) * 8 + 24) :=
      offsetDelta_eq freq L tail k B R hBR
    simp only [offsetLoop, hBR, h5, List.foldl_cons,
      updMin_eq L freq tail found k B R hBR]
    rw [← hdk]
    rcases le_or_lt (offsetDelta freq L tail k) 0 with hle | hlt
    · rw [if_pos hle, if_pos hle]
      exact ih found hmore
    · rw [if_neg (by omega), if_neg (by omega)]
      exact ih _ hmore

/-- Candidate invariant of the minimum tracker: a held datum always
comes from a parsed trial offset below 3 and carries that offset's
(positive) delta. -/
def Cand (freq : Nat) (L : Int) (tail : List Bool)
    (found : Option (Int × List Nat × List Bool × Nat)) : Prop :=
  match found with
  | none => True
  | some (d, B, R, k) =>
    k < 3 ∧ offsetBytes freq tail k = some (B, R) ∧
      d = offsetDelta freq L tail k ∧ 1 ≤ d

lemma cand_updMin (freq : Nat) (L : Int) (tail : List Bool)
    (found : Option (Int × List Nat × List Bool × Nat)) (k : Nat)
    (hk : k < 3) (B : List Nat) (R : List Bool)
    (hBR : offsetBytes freq tail k = some (B, R))
    (hc : Cand freq L tail found) :
    Cand freq L tail (updMin L freq tail found k) := by
  rw [updMin_eq L freq tail found k B R hBR]
  rcases le_or_lt (offsetDelta freq L tail k) 0 with hle | hlt
  · rw [if_pos hle]; exact hc
  · rw [if_neg (by omega)]
    rcases found with _ | ⟨d, B', R', k'⟩
    · exact ⟨hk, hBR, rfl, by omega⟩
    · by_cases hcmp : offsetDelta freq L tail k < d
      · simp only [hcmp, if_true]
        exact ⟨hk, hBR, rfl, by omega⟩
      · simp only [hcmp, if_false]
        exact hc

lemma cand_foldl (freq : Nat) (L : Int) (tail : List Bool) :
    ∀ (ks : List Nat) (found : Option (Int × List Nat × List Bool × Nat)),
    (∀ k ∈ ks, k < 3 ∧ ∃ B R, offsetBytes freq tail k = some (B, R)) →
    Cand freq L tail found →
    Cand freq L tail (ks.foldl (updMin L freq tail) found) := by
  intro ks
  induction ks with
  | nil => exact fun found _ hc => hc
  | cons k more ih =>
    intro found hk hc
    obtain ⟨hk3, B, R, hBR⟩ := hk k (by simp)
    exact ih _ (fun j hj => hk j (by simp [hj]))
      (cand_updMin freq L tail found k hk3 B R hBR hc)

lemma updMin_le_delta (L : Int) (freq : Nat) (tail : List Bool)
    (found : Option (Int × List Nat × List Bool × Nat)) (k : Nat)
    (B : List Nat) (R : List Bool)
    (hBR : offsetBytes freq tail k = some (B, R))
    (hpos : 1 ≤ offsetDelta freq L tail k) :
    ∃ e, updMin L freq tail found k = some e ∧
      e.1 ≤ offsetDelta freq L tail k := by
  rw [updMin_eq L freq tail found k B R hBR, if_neg (by omega)]
  rcases found with _ | ⟨d, data⟩
  · exact ⟨_, rfl, le_refl _⟩
  · by_cases hcmp : offsetDelta freq L tail k < d
    · simp only [hcmp, if_true]
      exact ⟨_, rfl, le_refl _⟩
    · simp only [hcmp, if_false]
      exact ⟨_, rfl, by omega⟩

lemma updMin_le_found (L : Int) (freq : Nat) (tail : List Bool)
    (p : Int × List Nat × List Bool × Nat) (k : Nat) :
    ∃ e, updMin L freq tail (some p) k = some e ∧ e.1 ≤ p.1 := by
  obtain ⟨d0, data0⟩ := p
  unfold updMin
  rcases offsetBytes freq tail k with _ | ⟨B, R⟩
  · exact ⟨_, rfl, le_refl _⟩
  · simp only
    rcases le_or_lt (L - (8 + 32 + 16 + Int.ofNat (B.getD 5 0) * 8 + 24)) 0
      with hle | hlt
    · rw [if_pos hle]
      exact ⟨_, rfl, le_refl _⟩
    · rw [if_neg (by omega)]
      by_cases hcmp : L - (8 + 32 + 16 + Int.ofNat (B.getD 5 0) * 8 + 24) < d0
      · simp only [hcmp, if_true]
        exact ⟨_, rfl, by omega⟩
      · simp only [hcmp, if_false]
        exact ⟨_, rfl, le_refl _⟩

/-- Once the tracker holds a datum, the fold keeps a datum and its
value never increases. -/
lemma foldl_updMin_mono (L : Int) (freq : Nat) (tail : List Bool) :
    ∀ (ks : List Nat) (p : Int × List Nat × List Bool × Nat),
    ∃ e, ks.foldl (updMin L freq tail) (some p) = some e ∧ e.1 ≤ p.1 := by
  intro ks
  induction ks with
  | nil => exact fun p => ⟨p, rfl, le_refl _⟩
  | cons k more ih =>
    intro p
    obtain ⟨e1, he1, hle1⟩ := updMin_le_found L freq tail p k
    obtain ⟨e2, he2, hle2⟩ := ih e1
    refine ⟨e2, ?_, by omega⟩
    rw [List.foldl_cons, he1]
    exact he2

/-- The fold result is a lower bound for every positive delta among the
visited offsets. -/
lemma foldl_updMin_min (L : Int) (freq : Nat) (tail : List Bool) :
    ∀ (ks : List Nat) (found : Option (Int × List Nat × List Bool × Nat))
      (e : Int × List Nat × List Bool × Nat),
    (∀ j ∈ ks, ∃ B R, offsetBytes freq tail j = some (B, R)) →
    ks.foldl (updMin L freq tail) found = some e →
    ∀ j ∈ ks, 1 ≤ offsetDelta freq L tail j →
      e.1 ≤ offsetDelta freq L tail j := by
  intro ks
  induction ks with
  | nil => intro _ _ _ _ j hj; simp at hj
  | cons k more ih =>
    intro found e hof hres j hj hjpos
    obtain ⟨B, R, hBR⟩ := hof k (by simp)
    rw [List.foldl_cons] at hres
    rcases (by simpa using hj : j = k ∨ j ∈ more) with rfl | hj'
    · obtain ⟨e1, he1, hle1⟩ :=
        updMin_le_delta L freq tail found j B R hBR hjpos
      rw [he1] at hres
      obtain ⟨e2, he2, hle2⟩ := foldl_updMin_mono L freq tail more e1
      have he : e = e2 := Option.some_inj.mp (hres.symm.trans he2)
      rw [he]
      omega
    · exact ih _ e (fun i hi => hof i (by simp [hi])) hres j hj' hjpos

/-- The fold yields `none` exactly when it started empty and every
visited offset's delta is non-positive. -/
lemma foldl_updMin_none (L : Int) (freq : Nat) (tail : List Bool) :
    ∀ (ks : List Nat) (found : Option (Int × List Nat × List Bool × Nat)),
    (∀ j ∈ ks, ∃ B R, offsetBytes freq tail j = some (B, R)) →
    (ks.foldl (updMin L freq tail) found = none ↔
      (found = none ∧ ∀ j ∈ ks, offsetDelta freq L tail j ≤ 0)) := by
  intro ks
  induction ks with
  | nil => intro found _; simp
  | cons k more ih =>
    intro found hof
    obtain ⟨B, R, hBR⟩ := hof k (by simp)
    rw [List.foldl_cons,
      ih (updMin L freq tail found k) (fun i hi => hof i (by simp [hi]))]
    have hupd : (updMin L freq tail found k = none ↔
        (found = none ∧ offsetDelta freq L tail k ≤ 0)) := by
      rw [updMin_eq L freq tail found k B R hBR]
      rcases le_or_lt (offsetDelta freq L tail k) 0 with hle | hlt
      · rw [if_pos hle]
        simp [hle]
      · rw [if_neg (by omega)]
        rcases found with _ | ⟨d, data⟩
        · simp
          omega
        · constructor
          · intro h
            by_cases hcmp : offsetDelta freq L tail k < d <;>
              simp [hcmp] at h
          · intro ⟨h, _⟩
            exact absurd h (by simp)
    constructor
    · intro ⟨h1, h2⟩
      obtain ⟨hf, hk⟩ := hupd.mp h1
      exact ⟨hf, by
        intro j hj
        rcases (by simpa using hj : j = k ∨ j ∈ more) with rfl | hj'
        · exact hk
        · exact h2 j hj'⟩
    · intro ⟨hf, hall⟩
      refine ⟨hupd.mpr ⟨hf, hall k (by simp)⟩, fun j hj => hall j (by simp [hj])⟩

lemma mem_offsets_of_lt_three (k : Nat) (hk : k < 3) :
    k ∈ ([0, 1, 2] : List Nat) := by
  interval_cases k <;> simp

/-- C1: once the LAP gate and the preamble check pass and at least 50
bits follow the preamble (so that every trial offset can recover the
six bytes its length computation reads), `bits_to_packet` tries offsets
0, 1 and 2, computes for each the delta between the input bit-stream
length and the declared packet length 8 + 32 + 16 + 8·bytes[5] + 24,
discards offsets with non-positive delta, and succeeds exactly when
some offset has delta in [1, 19] (delta 0 rejected, delta ≥ 20
rejected); on success the returned delta is the smallest positive delta
and the returned offset achieves it. -/
theorem c1_offset_search_minimum (lap : List Bool → Option Nat)
    (bits tail : List Bool) (freq : Nat)
    (hlap : lap bits = none ∨ lap bits = some 0xffffffff)
    (hpre : Preamble.parse bits = some tail)
    (hlen : 50 ≤ tail.length) :
    ((∃ r, bits_to_packet lap bits freq = some (.ok r)) ↔
      ∃ k, k < 3 ∧ 1 ≤ offsetDelta freq (bits.length : Int) tail k ∧
        offsetDelta freq (bits.length : Int) tail k < 20)
    ∧ ∀ remain pkt,
        bits_to_packet lap bits freq = some (.ok (remain, pkt)) →
        pkt.offset < 3 ∧
        pkt.delta = offsetDelta freq (bits.length : Int) tail pkt.offset ∧
        1 ≤ pkt.delta ∧ pkt.delta < 20 ∧
        ∀ j, j < 3 → 1 ≤ offsetDelta freq (bits.length : Int) tail j →
          pkt.delta ≤ offsetDelta freq (bits.length : Int) tail j := by
  have hof : ∀ k ∈ ([0, 1, 2] : List Nat),
      ∃ B R, offsetBytes freq tail k = some (B, R) ∧ 6 ≤ B.length := by
    intro k hk
    have hk3 : k < 3 := by
      rcases (by simpa using hk : k = 0 ∨ k = 1 ∨ k = 2) with rfl | rfl | rfl <;>
        omega
    exact offsetBytes_spec freq tail k (by omega)
  have hof' : ∀ j ∈ ([0, 1, 2] : List Nat),
      ∃ B R, offsetBytes freq tail j = some (B, R) := by
    intro j hj
    obtain ⟨B, R, hBR, _⟩ := hof j hj
    exact ⟨B, R, hBR⟩
  have hloop := offsetLoop_eq_foldl (bits.length : Int) freq tail [0, 1, 2]
    none hof
  rcases hacc : ([0, 1, 2] : List Nat).foldl
      (updMin (bits.length : Int) freq tail) none with _ | ⟨dmin, Bm, Rm, km⟩
  · rw [hacc] at hloop
    have hall := (foldl_updMin_none (bits.length : Int) freq tail
      [0, 1, 2] none hof').mp hacc
    rcases hlap with h | h <;>
    · constructor
      · constructor
        · intro ⟨r, hr⟩
          simp [bits_to_packet, h, hpre, hloop] at hr
        · intro ⟨k, hk3, h1, _⟩
          have := hall.2 k (mem_offsets_of_lt_three k hk3)
          omega
      · intro remain pkt hr
        simp [bits_to_packet, h, hpre, hloop] at hr
  · rw [hacc] at hloop
    have hcand : Cand freq (bits.length : Int) tail
        (some (dmin, Bm, Rm, km)) := by
      rw [← hacc]
      refine cand_foldl freq (bits.length : Int) tail [0, 1, 2] none ?_ trivial
      intro k hk
      have hk3 : k < 3 := by
        rcases (by simpa using hk : k = 0 ∨ k = 1 ∨ k = 2) with rfl | rfl | rfl <;>
          omega
      exact ⟨hk3, hof' k hk⟩
    obtain ⟨hkm, hBRm, hdm, hdpos⟩ := hcand
    have hmin : ∀ j, j < 3 → 1 ≤ offsetDelta freq (bits.length : Int) tail j →
        dmin ≤ offsetDelta freq (bits.length : Int) tail j := by
      intro j hj3 hp
      exact foldl_updMin_min (bits.length : Int) freq tail [0, 1, 2] none
        (dmin, Bm, Rm, km) hof' hacc j (mem_offsets_of_lt_three j hj3) hp
    rcases le_or_lt 20 dmin with hbig | hsmall
    · rcases hlap with h | h <;>
      · constructor
        · constructor
          · intro ⟨r, hr⟩
            simp [bits_to_packet, h, hpre, hloop, hbig] at hr
          · intro ⟨k, hk3, h1, h2⟩
            have := hmin k hk3 h1
            omega
        · intro remain pkt hr
          simp [bits_to_packet, h, hpre, hloop, hbig] at hr
    · have hnotbig : ¬(20 ≤ dmin) := by omega
      have hok : bits_to_packet lap bits freq =
          some (.ok (Rm,
            { bytes := Bm, aa := aaOfBytes Bm, freq := freq,
              delta := dmin, offset := km })) := by
        rcases hlap with h | h <;>
          simp [bits_to_packet, h, hpre, hloop, hnotbig]
      constructor
      · constructor
        · intro _
          exact ⟨km, hkm, by omega, by omega⟩
        · intro _
          exact ⟨_, hok⟩
      · intro remain pkt hr
        rw [hok] at hr
        obtain ⟨h1, h2⟩ : Rm = remain ∧
            ({ bytes := Bm, aa := aaOfBytes Bm, freq := freq,
               delta := dmin, offset := km } : BytePacket) = pkt := by
          have := Option.some_inj.mp hr
          constructor
          · exact congrArg Prod.fst (Except.ok.inj this)
          · exact congrArg Prod.snd (Except.ok.inj this)
        rw [← h2]
        exact ⟨hkm, hdm, hdpos, hsmall, hmin⟩

/-- C6 (code bug): with the access-code finder reporting nothing, a
38-bit stream passing the preamble check makes `bits_to_packet` index
`bytes[5]` on a 4-byte vector — an out-of-bounds panic (`none`), not
the claimed bit-starvation / length-not-found error value. -/
theorem c6_bit_starvation_panics :
    bits_to_packet (fun _ => none) c6Bits 2402 = none := by
  have h : (bits_to_packet (fun _ => none) c6Bits 2402).isNone = true := by
    decide
  exact Option.isNone_iff_eq_none.mp h

/-- Concrete input for the C1 witness: an all-zero preamble followed by
50 zero bits. -/
def c1Bits : List Bool := List.replicate 56 false

/-- The bits following the preamble of `c1Bits`. -/
def c1Tail : List Bool := List.replicate 50 false

/-- Witness for C1: the hypotheses hold at a concrete input and the
theorem applies there. -/
theorem c1_offset_search_minimum_witness :
    ((fun _ : List Bool => (none : Option Nat)) c1Bits = none ∨
      (fun _ : List Bool => (none : Option Nat)) c1Bits = some 0xffffffff)
    ∧ Preamble.parse c1Bits = some c1Tail
    ∧ 50 ≤ c1Tail.length
    ∧ (((∃ r, bits_to_packet (fun _ => none) c1Bits 2402 = some (.ok r)) ↔
        ∃ k, k < 3 ∧ 1 ≤ offsetDelta 2402 (c1Bits.length : Int) c1Tail k ∧
          offsetDelta 2402 (c1Bits.length : Int) c1Tail k < 20)
      ∧ ∀ remain pkt,
          bits_to_packet (fun _ => none) c1Bits 2402 =
            some (.ok (remain, pkt)) →
          pkt.offset < 3 ∧
          pkt.delta = offsetDelta 2402 (c1Bits.length : Int) c1Tail pkt.offset ∧
          1 ≤ pkt.delta ∧ pkt.delta < 20 ∧
          ∀ j, j < 3 →
            1 ≤ offsetDelta 2402 (c1Bits.length : Int) c1Tail j →
            pkt.delta ≤ offsetDelta 2402 (c1Bits.length : Int) c1Tail j) :=
  ⟨Or.inl rfl, by decide, by decide,
    c1_offset_search_minimum (fun _ => none) c1Bits c1Tail 2402
      (Or.inl rfl) (by decide) (by decide)⟩

/-! ## FSK bit emission (`FskDemod::demod`, src/fsk.rs lines 102-144)

The stages before bit emission (the liquid-dsp frequency discriminator
and the CFO/deviation estimate) run in external C code and f32; the
claims here concern the bit-emission tail, which is embedded from the
normalised discriminator trace onward, with f32 arithmetic modelled
over ℚ (exact for the literals involved). -/

/-- `FskDemod::new`: `sample_per_symbol =
(sample_rate / num_channels as f32 / 1e6 * 2.0) as usize`
(`as usize` truncates). -/
def sample_per_symbol (sample_rate : ℚ) (num_channels : Nat) : Nat :=
  ⌊sample_rate / (num_channels : ℚ) / 1000000 * 2⌋.toNat

/-- The `demod[0]` clamp: `if demod[0].abs() > 1.5 { demod[0] = 0. }`. -/
def zeroFirst : List ℚ → List ℚ
  | [] => []
  | v :: rest => (if 3/2 < |v| then 0 else v) :: rest

/-- The EWMA silence gate (`skip_while` with
`ewma = ewma*(1.-ALPHA) + v.abs()*ALPHA`, ALPHA = 0.8): drop leading
samples while the running EWMA stays ≤ 0.5; the first sample that
trips the gate is kept. -/
def skipSilence (ewma : ℚ) : List ℚ → List ℚ
  | [] => []
  | v :: rest =>
    let e := ewma * (1 - 4/5) + |v| * (4/5)
    if e ≤ 1/2 then skipSilence e rest else v :: rest

/-- Rust `Iterator::step_by(2)`, the literal stride in
`FskDemod::demod`: keep elements 0, 2, 4, …. -/
def stepBy2 : List ℚ → List ℚ
  | [] => []
  | [v] => [v]
  | v :: _ :: rest => v :: stepBy2 rest

/-- The bit-emission tail of `FskDemod::demod` (everything after the
CFO/deviation normalisation): clamp the first sample, skip the silent
prefix with the EWMA gate, then walk the trace with the hard-coded
stride 2 (`.step_by(2)`), emitting 1 for positive samples and 0
otherwise. -/
def demodBits (trace : List ℚ) : List Nat :=
  (stepBy2 (skipSilence 0 (zeroFirst trace))).map
    fun v => if 0 < v then 1 else 0

/-- Spec-side stride walk, written from the spec's words "From the
first non-silent sample, step by `samples_per_symbol`": keep an
element whenever the countdown hits 0, restarting it at n−1. -/
def stepByAux (n : Nat) : Nat → List ℚ → List ℚ
  | _, [] => []
  | 0, v :: rest => v :: stepByAux n (n - 1) rest
  | c + 1, _ :: rest => stepByAux n c rest

/-- Spec-side bit emission with stride `samples_per_symbol`
(refinement comparison definition following the spec's words, to be
compared with `demodBits`). -/
def demodBitsSpec (sps : Nat) (trace : List ℚ) : List Nat :=
  (stepByAux sps 0 (skipSilence 0 (zeroFirst trace))).map
    fun v => if 0 < v then 1 else 0

/-- Concrete normalised trace for the C2 counterexample. -/
def c2Trace : List ℚ := [1, -1, -1, -1, 1]

/-- C2 counterexample: with sample rate 40 MHz and 20 channels the
constructed `sample_per_symbol` is 4, yet the code's bit emission walks
the trace with stride 2, so it differs from the spec's
stride-`samples_per_symbol` emission: the claim fails for this
configuration. -/
theorem c2_stride_counterexample :
    sample_per_symbol 40000000 20 = 4 ∧
    demodBits c2Trace ≠
      demodBitsSpec (sample_per_symbol 40000000 20) c2Trace := by
  have hsps : sample_per_symbol 40000000 20 = 4 := by
    norm_num [sample_per_symbol]
    rfl
  refine ⟨hsps, ?_⟩
  rw [hsps]
  have hskip : skipSilence 0 (zeroFirst c2Trace) = c2Trace := by
    norm_num [c2Trace, zeroFirst, skipSilence]
  have hlhs : demodBits c2Trace = [1, 0, 1] := by
    rw [demodBits, hskip]
    norm_num [c2Trace, stepBy2]
  have hrhs : demodBitsSpec 4 c2Trace = [1, 1] := by
    rw [demodBitsSpec, hskip]
    norm_num [c2Trace, stepByAux]
  rw [hlhs, hrhs]
  simp

lemma stepBy2_getElem? : ∀ (l : List ℚ) (k : Nat),
    (stepBy2 l)[k]? = l[2 * k]?
  | [], k => by simp [stepBy2]
  | [v], 0 => by simp [stepBy2]
  | [v], k + 1 => by
    rw [show 2 * (k + 1) = 2 * k + 1 + 1 by ring]
    simp [stepBy2]
  | v :: w :: rest, 0 => by simp [stepBy2]
  | v :: w :: rest, k + 1 => by
    have ih := stepBy2_getElem? rest k
    rw [show 2 * (k + 1) = 2 * k + 1 + 1 by ring]
    simp [stepBy2, ih]

lemma stepBy2_eq_stepByAux_two : ∀ l : List ℚ, stepBy2 l = stepByAux 2 0 l
  | [] => by simp [stepBy2, stepByAux]
  | [v] => by simp [stepBy2, stepByAux]
  | v :: w :: rest => by
    have ih := stepBy2_eq_stepByAux_two rest
    simp [stepBy2, stepByAux, ih]

/-- C2 amended: after the EWMA gate, hard bits are emitted with the
FIXED stride 2 — bit k is the sign bit of post-gate sample 2·k —
independent of the configured samples-per-symbol; the emission agrees
with the spec's stride-`samples_per_symbol` walk exactly in the
stride-2 (canonical-configuration) case. -/
theorem c2_bits_use_fixed_stride_two :
    (∀ (trace : List ℚ) (k : Nat),
      (demodBits trace)[k]? =
        ((skipSilence 0 (zeroFirst trace))[2 * k]?).map
          (fun v => if 0 < v then 1 else 0))
    ∧ ∀ trace : List ℚ, demodBits trace = demodBitsSpec 2 trace := by
  constructor
  · intro trace k
    unfold demodBits
    rw [List.getElem?_map, stepBy2_getElem?]
  · intro trace
    unfold demodBits demodBitsSpec
    rw [stepBy2_eq_stepByAux_two]

/-! ## Polyphase channelizer (`Channelizer`, src/channelizer.rs)

The Kaiser prototype is generated by the external liquid-dsp C library
and the per-arm dot product by the C kernel `dotprod_8`
(src/apply_filter.c); the C5 claim concerns sample counts, parity and
determinism, which do not depend on the tap values, so the filter bank
is carried as state and the dot product embedded as the plain integer
dot product the kernel computes. -/

/-- Per-channel sliding window (`SlidingWindow`): circular buffer of
`len` samples with a guard region `offset = 2·len`; the buffers have
`len + offset − 1` slots.  `current_pos` wraps modulo `offset` (the
source uses the bitmask `offset − 1`, equal to the modulus because
`len` is asserted to be a power of two). -/
structure SlidingWindow where
  current_pos : Nat
  len : Nat
  offset : Nat
  r : List Int
  i : List Int
deriving Repr, DecidableEq

/-- `copy_within(k.., 0)`: move the tail starting at `k` to the front,
keeping the last `k` slots. -/
def copyWithin (l : List Int) (k : Nat) : List Int :=
  l.drop k ++ l.drop (l.length - k)

/-- `SlidingWindow::push`. -/
def SlidingWindow.push (w : SlidingWindow) (x : Int × Int) : SlidingWindow :=
  let pos := (w.current_pos + 1) % w.offset
  let r1 := if pos = 0 then copyWithin w.r w.offset else w.r
  let i1 := if pos = 0 then copyWithin w.i w.offset else w.i
  let write_pos := pos + w.len - 1
  { w with current_pos := pos,
           r := r1.set write_pos x.1, i := i1.set write_pos x.2 }

/-- The dot product computed by the C kernels `dotprod_8` /
`dotprod_8_float` (32-bit wrap-around cannot occur for 8-bit samples
against 16-bit taps and is not modelled). -/
def dotprod (a b : List Int) : Int :=
  (List.zipWith (fun x y => x * y) a b).sum

/-- `SlidingWindow::apply_filter`: dot product of the `len` most-recent
samples (starting at `current_pos`) with the reversed subfilter, then
an arithmetic shift right by 8 (floor division by 256), due to the
SDR's signal format. -/
def SlidingWindow.apply_filter (w : SlidingWindow) (filter : List Int) :
    Int × Int :=
  (Int.fdiv (dotprod ((w.r.drop w.current_pos).take w.len) filter) 256,
   Int.fdiv (dotprod ((w.i.drop w.current_pos).take w.len) filter) 256)

/-- In-place update of one list element (`self.windows[idx].push(..)`). -/
def modifyAt {α : Type} : List α → Nat → (α → α) → List α
  | [], _, _ => []
  | a :: as, 0, f => f a :: as
  | a :: as, n + 1, f => a :: modifyAt as n f

/-- Channelizer state: channel count, `channel_half = N/2`, filter
bank, N sliding windows, parity flag. -/
structure Channelizer where
  num_channels : Nat
  channel_half : Nat
  subfilters : List (List Int)
  windows : List SlidingWindow
  flag : Bool
deriving Repr, DecidableEq

/-- `Channelizer::push_to_window_2`: push input sample `idx` into
window `N − idx − 1` when the parity flag is set, else into
`N/2 − idx − 1`. -/
def Channelizer.push_to_window_2 (c : Channelizer)
    (input : List (Int × Int)) : Channelizer :=
  { c with windows :=
      (input.enum.foldl
        (fun ws p =>
          let window_idx :=
            if c.flag then c.num_channels - p.1 - 1
            else c.channel_half - p.1 - 1
          modifyAt ws window_idx (fun w => w.push p.2))
        c.windows) }

/-- `Channelizer::apply_2`: for channel `ch_idx` apply the subfilter at
`(offset + ch_idx) mod N` with `offset = N/2` when the parity flag is
set else 0, and scale by 1/32768 (exact in f32 for the 24-bit
post-shift values; modelled over ℚ). -/
def Channelizer.apply_2 (c : Channelizer) : List (ℚ × ℚ) :=
  let offset := if c.flag then c.channel_half else 0
  c.windows.enum.map fun p =>
    let current_pos := (offset + p.1) % c.num_channels
    let sf := c.subfilters.getD current_pos []
    let v := p.2.apply_filter sf
    ((v.1 : ℚ) / 32768, (v.2 : ℚ) / 32768)

/-- `Channelizer::channelize`: push the half-block, filter, flip the
parity flag (the source requires `input.len() == channel_half` by
`debug_assert`). -/
def Channelizer.channelize (c : Channelizer) (input : List (Int × Int)) :
    Channelizer × List (ℚ × ℚ) :=
  let c1 := c.push_to_window_2 input
  ({ c1 with flag := !c1.flag }, c1.apply_2)

/-- K successive `channelize` calls, concatenating the outputs. -/
def Channelizer.channelizeAll (c : Channelizer) :
    List (List (Int × Int)) → Channelizer × List (ℚ × ℚ)
  | [] => (c, [])
  | b :: bs =>
    let s := c.channelize b
    let rest := s.1.channelizeAll bs
    (rest.1, s.2 ++ rest.2)

lemma modifyAt_length {α : Type} :
    ∀ (l : List α) (n : Nat) (f : α → α), (modifyAt l n f).length = l.length
  | [], _, _ => rfl
  | _ :: as, 0, _ => rfl
  | a :: as, n + 1, f => by simp [modifyAt, modifyAt_length as n f]

lemma push_foldl_length (flagv : Bool) (nc ch : Nat) :
    ∀ (ps : List (Nat × (Int × Int))) (ws : List SlidingWindow),
    (ps.foldl
      (fun ws p =>
        let window_idx := if flagv then nc - p.1 - 1 else ch - p.1 - 1
        modifyAt ws window_idx (fun w => w.push p.2)) ws).length =
      ws.length := by
  intro ps
  induction ps with
  | nil => intro ws; rfl
  | cons p more ih =>
    intro ws
    rw [List.foldl_cons, ih]
    exact modifyAt_length ws _ _

lemma push_to_window_2_length (c : Channelizer) (input : List (Int × Int)) :
    (c.push_to_window_2 input).windows.length = c.windows.length := by
  unfold Channelizer.push_to_window_2
  exact push_foldl_length c.flag c.num_channels c.channel_half input.enum
    c.windows

lemma apply_2_length (c : Channelizer) :
    c.apply_2.length = c.windows.length := by
  simp [Channelizer.apply_2]

/-- C5: each `channelize` call takes one `N/2`-sample block and
produces exactly `N` complex outputs while toggling the parity flag and
preserving the window bank, so K calls consume `K·N/2` samples and
produce `K·N` outputs; the output is a deterministic function of the
construction parameters and input history (the embedding is a pure
function of the state and the blocks). -/
theorem c5_channelize_counts (c : Channelizer)
    (hw : c.windows.length = c.num_channels) :
    (∀ input : List (Int × Int),
      (c.channelize input).2.length = c.num_channels ∧
      (c.channelize input).1.flag = !c.flag ∧
      (c.channelize input).1.windows.length = c.num_channels)
    ∧ (∀ blocks : List (List (Int × Int)),
        (∀ b ∈ blocks, b.length = c.channel_half) →
        (c.channelizeAll blocks).2.length = blocks.length * c.num_channels ∧
        (blocks.map List.length).sum = blocks.length * c.channel_half)
    ∧ ∀ blocks1 blocks2 : List (List (Int × Int)), blocks1 = blocks2 →
        c.channelizeAll blocks1 = c.channelizeAll blocks2 := by
  have hone : ∀ (s : Channelizer), s.windows.length = s.num_channels →
      ∀ input : List (Int × Int),
      (s.channelize input).2.length = s.num_channels ∧
      (s.channelize input).1.flag = !s.flag ∧
      (s.channelize input).1.windows.length = s.num_channels := by
    intro s hs input
    refine ⟨?_, rfl, ?_⟩
    · rw [show (s.channelize input).2 = (s.push_to_window_2 input).apply_2
        from rfl, apply_2_length, push_to_window_2_length]
      exact hs
    · rw [show (s.channelize input).1.windows =
        (s.push_to_window_2 input).windows from rfl,
        push_to_window_2_length]
      exact hs
  refine ⟨hone c hw, ?_, fun b1 b2 h => by rw [h]⟩
  have hall : ∀ (blocks : List (List (Int × Int))) (s : Channelizer),
      s.windows.length = s.num_channels → s.num_channels = c.num_channels →
      (s.channelizeAll blocks).2.length = blocks.length * c.num_channels := by
    intro blocks
    induction blocks with
    | nil => intro s _ _; simp [Channelizer.channelizeAll]
    | cons b bs ih =>
      intro s hs hn
      have h1 := hone s hs b
      have hn1 : (s.channelize b).1.num_channels = c.num_channels := by
        rw [show (s.channelize b).1.num_channels = s.num_channels from rfl, hn]
      have hw1 : (s.channelize b).1.windows.length =
          (s.channelize b).1.num_channels := by
        rw [show (s.channelize b).1.num_channels = s.num_channels from rfl]
        exact h1.2.2
      have := ih (s.channelize b).1 hw1 hn1
      simp only [Channelizer.channelizeAll, List.length_append,
        List.length_cons]
      rw [this, h1.1, hn]
      ring
  intro blocks hb
  refine ⟨hall blocks c hw rfl, ?_⟩
  induction blocks with
  | nil => simp
  | cons b bs ih =>
    have hbs : ∀ x ∈ bs, x.length = c.channel_half :=
      fun x hx => hb x (by simp [hx])
    simp only [List.map_cons, List.sum_cons, List.length_cons,
      hb b (by simp), ih hbs]
    ring

/-- Concrete window for the C5 witness (len 8, guard 16, buffers of
8 + 16 − 1 slots). -/
def c5Window : SlidingWindow :=
  ⟨0, 8, 16, List.replicate 23 0, List.replicate 23 0⟩

/-- Concrete two-channel channelizer state for the C5 witness. -/
def c5Chan : Channelizer :=
  ⟨2, 1, [List.replicate 8 1, List.replicate 8 2], [c5Window, c5Window],
    false⟩

/-- Witness for C5: the window-bank hypothesis holds at a concrete
channelizer and the theorem applies there. -/
theorem c5_channelize_counts_witness :
    c5Chan.windows.length = c5Chan.num_channels
    ∧ ((∀ input : List (Int × Int),
          (c5Chan.channelize input).2.length = c5Chan.num_channels ∧
          (c5Chan.channelize input).1.flag = !c5Chan.flag ∧
          (c5Chan.channelize input).1.windows.length = c5Chan.num_channels)
      ∧ (∀ blocks : List (List (Int × Int)),
          (∀ b ∈ blocks, b.length = c5Chan.channel_half) →
          (c5Chan.channelizeAll blocks).2.length =
            blocks.length * c5Chan.num_channels ∧
          (blocks.map List.length).sum =
            blocks.length * c5Chan.channel_half)
      ∧ ∀ blocks1 blocks2 : List (List (Int × Int)), blocks1 = blocks2 →
          c5Chan.channelizeAll blocks1 = c5Chan.channelizeAll blocks2) :=
  ⟨rfl, c5_channelize_counts c5Chan rfl⟩

/-! ## BLE packet parser (`Bluetooth::from_bytes`, src/bluetooth.rs) -/

/-- Advertising PDU types (lower 4 header bits). -/
inductive PDUType
  | AdvInd
  | AdvDirectInd
  | AdvNonconnInd
  | ScanReq
  | ScanRsp
  | ConnectReq
  | AdvScanInd
  | Unknown (x : Nat)
deriving Repr, DecidableEq

/-- Advertising PDU header: type plus the four flag bits. -/
structure PDUHeader where
  pdu_type : PDUType
  rfu : Bool
  ch_sel : Bool
  tx_add : Bool
  rx_add : Bool
deriving Repr, DecidableEq

/-- `PDUHeader::from_byte`: lower 4 bits select the type (with a
catch-all `Unknown`), upper bits 4–7 are the RFU/ChSel/TxAdd/RxAdd
flags.  Total: the catch-all arm makes the `Option` always `some`. -/
def PDUHeader.from_byte (b : Nat) : Option PDUHeader :=
  let pdu_type :=
    match b % 16 with
    | 0 => some PDUType.AdvInd
    | 1 => some PDUType.AdvDirectInd
    | 2 => some PDUType.AdvNonconnInd
    | 3 => some PDUType.ScanReq
    | 4 => some PDUType.ScanRsp
    | 5 => some PDUType.ConnectReq
    | 6 => some PDUType.AdvScanInd
    | x => some (PDUType.Unknown x)
  match pdu_type with
  | none => none
  | some t =>
    some ⟨t, (b / 16) % 2 == 1, (b / 32) % 2 == 1, (b / 64) % 2 == 1,
      (b / 128) % 2 == 1⟩

/-- Six-byte device address, LSB first (`MacAddress`). -/
structure MacAddress where
  address : List Nat
deriving Repr, DecidableEq

/-- `MacAddress::from_bytes`: take 6 bytes or fail. -/
def MacAddress.from_bytes (input : List Nat) :
    Option (List Nat × MacAddress) :=
  if 6 ≤ input.length then some (input.drop 6, ⟨input.take 6⟩) else none

/-- One TLV ad-structure (`AdvData`). -/
structure AdvData where
  len : Nat
  data : List Nat
deriving Repr, DecidableEq

/-- `AdvData::from_bytes`: a length byte followed by that many bytes. -/
def AdvData.from_bytes (input : List Nat) :
    Option (List Nat × AdvData) :=
  match input with
  | [] => none
  | len :: rest =>
    if len ≤ rest.length then some (rest.drop len, ⟨len, rest.take len⟩)
    else none

/-- The `while let Ok` TLV loop of `Advertisement::from_bytes`, with
explicit fuel: each iteration consumes at least one byte, so
`input.length + 1` units never run out. -/
def advDataLoop : Nat → List Nat → List AdvData × List Nat
  | 0, input => ([], input)
  | fuel + 1, input =>
    match AdvData.from_bytes input with
    | none => ([], input)
    | some (remain, ad) =>
      let p := advDataLoop fuel remain
      (ad :: p.1, p.2)

/-- Parsed advertising PDU (`Advertisement`). -/
structure Advertisement where
  pdu_header : PDUHeader
  length : Nat
  address : MacAddress
  data : List AdvData
deriving Repr, DecidableEq

/-- `Advertisement::from_bytes`: one header byte (its `unwrap` cannot
panic since `PDUHeader::from_byte` is total), one length byte, a
six-byte address, then the greedy TLV loop.  `none` is a nom parse
error, propagated to the caller. -/
def Advertisement.from_bytes (input : List Nat) :
    Option (List Nat × Advertisement) :=
  match input with
  | [] => none
  | b :: rest =>
    match PDUHeader.from_byte b with
    | none => none
    | some hdr =>
      match rest with
      | [] => none
      | len :: rest2 =>
        match MacAddress.from_bytes rest2 with
        | none => none
        | some (rest3, addr) =>
          let p := advDataLoop (rest3.length + 1) rest3
          some (p.2, ⟨hdr, len, addr, p.1⟩)

/-- Packet body: advertising PDU on the fixed advertising access
address, otherwise the raw access address (`PacketInner`). -/
inductive PacketInner
  | Advertisement (adv : RFRaptor.Advertisement)
  | Unimplemented (aa : Nat)
deriving Repr, DecidableEq

/-- `PacketInner::from_bytes`: little-endian u32 access address, then
an `Advertisement` when it equals 0x8E89BED6. -/
def PacketInner.from_bytes (input : List Nat) :
    Option (List Nat × PacketInner) :=
  match input with
  | a :: b :: c :: d :: rest =>
    let aa := a + 256 * b + 65536 * c + 16777216 * d
    if aa = 0x8E89BED6 then
      match Advertisement.from_bytes rest with
      | none => none
      | some (remain, adv) => some (remain, PacketInner.Advertisement adv)
    else some (rest, PacketInner.Unimplemented aa)
  | _ => none

/-- Parsed packet with its 3-byte CRC suffix (`BluetoothPacket`). -/
structure BluetoothPacket where
  inner : PacketInner
  crc : List Nat
deriving Repr, DecidableEq

/-- Decoded packet as delivered to the sink (`Bluetooth`). -/
structure Bluetooth where
  bytes_packet : BytePacket
  packet : BluetoothPacket
  remain : List Nat
  freq : Nat
deriving Repr, DecidableEq

/-- `DecodeError` (never actually produced by `Bluetooth::from_bytes`,
which either succeeds or panics). -/
inductive DecodeError
  | FoundClassic (aa : Nat)
  | PacketNotFound
deriving Repr, DecidableEq

/-- `Bluetooth::from_bytes`: drain the last 3 bytes into `crc`, parse
the rest as `PacketInner` and `unwrap` the result.  `none` models a
Rust panic: the drain on fewer than 3 bytes, and the `unwrap` of a
failed parse (marked `FIXME: unwrap will panic if slice is too short`
in the source). -/
def Bluetooth.from_bytes (bp : BytePacket) (freq : Nat) :
    Option (Except DecodeError Bluetooth) :=
  let len := bp.bytes.length
  if len < 3 then none
  else
    let crc := bp.bytes.drop (len - 3)
    let body := bp.bytes.take (len - 3)
    match PacketInner.from_bytes body with
    | none => none
    | some (remain, inner) =>
      some (.ok
        { bytes_packet := { bp with bytes := body },
          packet := { inner := inner, crc := crc },
          remain := remain, freq := freq })

/-- A 9-byte recovered packet: the advertising access address
0x8E89BED6 (little-endian), two further bytes, and the 3-byte CRC
suffix — fewer bytes than header + length + 6-byte address require. -/
def c7Packet : BytePacket :=
  { bytes := [0xD6, 0xBE, 0x89, 0x8E, 0, 0, 0, 0, 0], aa := 0x8E89BED6,
    freq := 2402, delta := 1, offset := 0 }

/-- C7 (code bug): on a 9-byte packet whose access address is the
advertising one but whose PDU is truncated (the 6-byte address cannot
be taken), `Bluetooth::from_bytes` panics on its `unwrap` (the source's
own FIXME) instead of returning a `DecodeError`. -/
theorem c7_truncated_pdu_panics :
    Bluetooth.from_bytes c7Packet 2402 = none := by
  rfl

/-! ## Channel fan-out routing (`prepare_pfbch2_fsk_mpsc`,
src/stream.rs lines 54-81) -/

/-- The per-channel routing decision: channel index `k` maps to
`freq = freq_mhz + (k if k < N/2 else k − N)` (isize arithmetic); a
queue and worker exist exactly when `freq & 1 == 0` and
`2402 ≤ freq ≤ 2480`, and the worker's frequency is rebuilt through
`BluetoothChannel::from_freq`/`to_freq` as `2402 + 2·((freq−2402)/2)`.
Returns the worker frequency, or `none` when the channel's samples are
discarded. -/
def routeChannel (freq_mhz : Int) (num_channels : Nat) (k : Nat) :
    Option Int :=
  let half : Int := (num_channels : Int) / 2
  let off : Int :=
    if (k : Int) < half then (k : Int) else (k : Int) - (num_channels : Int)
  let freq := freq_mhz + off
  if freq % 2 = 0 ∧ 2402 ≤ freq ∧ freq ≤ 2480 then
    let blch := (freq - 2402) / 2
    some (2402 + 2 * blch)
  else none

/-- The spec's channel-index-to-RF-frequency map
`f_k = f_c + (k if k < N/2 else k − N)`. -/
def fkSpec (freq_mhz : Int) (num_channels : Nat) (k : Nat) : Int :=
  freq_mhz +
    (if k < num_channels / 2 then (k : Int)
     else (k : Int) - (num_channels : Int))

/-- C8: a channeliser output index is routed to a worker exactly when
its RF frequency `f_k` is an even integer in [2402, 2480]; every other
index is discarded (`none`), and the routed worker is created with
frequency exactly `f_k`. -/
theorem c8_fanout_routing (freq_mhz : Int) (n k : Nat) :
    routeChannel freq_mhz n k =
      (if fkSpec freq_mhz n k % 2 = 0 ∧ 2402 ≤ fkSpec freq_mhz n k ∧
          fkSpec freq_mhz n k ≤ 2480
       then some (fkSpec freq_mhz n k) else none) := by
  have hoff : (if (k : Int) < (n : Int) / 2 then (k : Int)
      else (k : Int) - (n : Int)) =
      (if k < n / 2 then (k : Int) else (k : Int) - (n : Int)) := by
    by_cases h : k < n / 2
    · rw [if_pos h, if_pos (by omega)]
    · rw [if_neg h, if_neg (by omega)]
  have route_if : ∀ F : Int,
      (if F % 2 = 0 ∧ 2402 ≤ F ∧ F ≤ 2480 then
        some (2402 + 2 * ((F - 2402) / 2)) else none) =
      (if F % 2 = 0 ∧ 2402 ≤ F ∧ F ≤ 2480 then some F else none) := by
    intro F
    by_cases hc : F % 2 = 0 ∧ 2402 ≤ F ∧ F ≤ 2480
    · rw [if_pos hc, if_pos hc]
      obtain ⟨h1, h2, h3⟩ := hc
      congr 1
      omega
    · rw [if_neg hc, if_neg hc]
  simp only [routeChannel, fkSpec, hoff]
  exact route_if _

end RFRaptor
